import Mathlib

/-!
Shallow embedding of the `zognorp` sudoku solver (Rust sources:
`src/puzzle.rs`, `src/sort.rs`, `src/solver.rs`).

Modelling conventions:
* Rust `[Cell; 81]` / `[Cell; 9]` arrays become Lean `List Cell` values;
  out-of-range reads (which panic in Rust) are modelled with `List.getD`
  defaulting to `Cell.unset` — all claims stay within the asserted bounds.
* Rust `HashSet<Cell>` values become duplicate-free `List Cell` values in
  the canonical digit order `one .. nine` (the insertion order used by
  `possibilities`); `HashSet::len` is the list length and
  `HashSet::remove`-based elimination is a `filter`.
* The two functions that can diverge (`merge_sort`, whose only base case is
  `len == 1`, and `solve_sudoku`, which calls it) are embedded with an
  explicit fuel parameter returning `Option`; `none` for every fuel means
  the source recurses forever (stack overflow).
* The `panic!` branch of `solve_sudoku`'s match is modelled by the
  `SolveResult.fatal` constructor.
-/

namespace Zognorp

/-- The `Cell` enum from `puzzle.rs`: `Unset` or a digit `One`..`Nine`. -/
inductive Cell where
  | unset
  | one
  | two
  | three
  | four
  | five
  | six
  | seven
  | eight
  | nine
deriving DecidableEq

/-- Method `Cell::is_set`: true for every constructor except `Unset`. -/
def Cell.is_set (c : Cell) : Bool :=
  match c with
  | Cell.unset => false
  | _ => true

/-- Conversion `impl From<u8> for Cell` (the source asserts `value <= 9`; values above
9 are outside the asserted domain and default to `unset` here). -/
def cellOfNat (v : Nat) : Cell :=
  match v with
  | 0 => Cell.unset
  | 1 => Cell.one
  | 2 => Cell.two
  | 3 => Cell.three
  | 4 => Cell.four
  | 5 => Cell.five
  | 6 => Cell.six
  | 7 => Cell.seven
  | 8 => Cell.eight
  | 9 => Cell.nine
  | _ => Cell.unset

/-- The `Puzzle` struct: the 81-element cell array, as a list. -/
structure Puzzle where
  cells : List Cell
deriving DecidableEq

/-- Read cell `i` of the board (`self.cells[i]`; in-bounds in all claims). -/
def Puzzle.cellAt (p : Puzzle) (i : Nat) : Cell :=
  p.cells.getD i Cell.unset

/-- Method `Puzzle::set_cell`: clone the cell array, overwrite one index, wrap the
result in a new `Puzzle`.  The receiver is untouched (it is immutable). -/
def Puzzle.set_cell (p : Puzzle) (index : Nat) (cell : Cell) : Puzzle :=
  Puzzle.mk (p.cells.set index cell)

/-- Method `Puzzle::iter_unset_cells`: indices and values of all unset cells, in
ascending index order. -/
def Puzzle.iter_unset_cells (p : Puzzle) : List (Nat × Cell) :=
  p.cells.enum.filter (fun x => !x.2.is_set)

/-- Indices read by `Puzzle::row`: the element-wise copy of the slice
`cells[9*index .. 9*index+9]`. -/
def rowIdxs (index : Nat) : List Nat :=
  [9*index, 9*index+1, 9*index+2, 9*index+3, 9*index+4,
   9*index+5, 9*index+6, 9*index+7, 9*index+8]

/-- Indices read by `Puzzle::column`: `out[i] = cells[index + i * 9]`. -/
def colIdxs (index : Nat) : List Nat :=
  [index, index+9, index+18, index+27, index+36,
   index+45, index+54, index+63, index+72]

/-- The `start_index` match in `Puzzle::block` (arms `0..=2`, `3..=5`,
`6..=8`; larger indices are behind the source's `assert!(index < 9)`). -/
def blockStart (index : Nat) : Nat :=
  if index ≤ 2 then index * 3
  else if index ≤ 5 then 27 + (index % 3) * 3
  else 54 + (index % 3) * 3

/-- Indices read by `Puzzle::block`: three chained 3-cell slices starting at
`start_index`, `start_index + 9`, `start_index + 18`. -/
def blockIdxs (index : Nat) : List Nat :=
  [blockStart index, blockStart index + 1, blockStart index + 2,
   blockStart index + 9, blockStart index + 10, blockStart index + 11,
   blockStart index + 18, blockStart index + 19, blockStart index + 20]

/-- Method `Puzzle::row`. -/
def Puzzle.row (p : Puzzle) (index : Nat) : List Cell :=
  (rowIdxs index).map p.cellAt

/-- Method `Puzzle::column`. -/
def Puzzle.column (p : Puzzle) (index : Nat) : List Cell :=
  (colIdxs index).map p.cellAt

/-- Method `Puzzle::block`. -/
def Puzzle.block (p : Puzzle) (index : Nat) : List Cell :=
  (blockIdxs index).map p.cellAt

/-- The nine-arm `(row_index, column_index)` match inside
`Puzzle::possibilities` that picks the 3x3 block of a cell. -/
def blockIndexOf (rowIndex columnIndex : Nat) : Nat :=
  if rowIndex ≤ 2 then
    (if columnIndex ≤ 2 then 0 else if columnIndex ≤ 5 then 1 else 2)
  else if rowIndex ≤ 5 then
    (if columnIndex ≤ 2 then 3 else if columnIndex ≤ 5 then 4 else 5)
  else
    (if columnIndex ≤ 2 then 6 else if columnIndex ≤ 5 then 7 else 8)

/-- The nine digits inserted into the fresh `HashSet` by
`Puzzle::possibilities`, in insertion order. -/
def allDigits : List Cell :=
  [Cell.one, Cell.two, Cell.three, Cell.four, Cell.five,
   Cell.six, Cell.seven, Cell.eight, Cell.nine]

/-- Method `Puzzle::possibilities`: start from all nine digits and remove every
cell value occurring in the cell's row, column or block (removing `Unset`
is a no-op, exactly as `HashSet::remove` on a set that never contains it). -/
def Puzzle.possibilities (p : Puzzle) (cellIndex : Nat) : List Cell :=
  let rowIndex := cellIndex / 9
  let columnIndex := cellIndex % 9
  let blockIndex := blockIndexOf rowIndex columnIndex
  allDigits.filter
    (fun d => !((p.row rowIndex ++ p.column columnIndex ++ p.block blockIndex).contains d))

/-- Loop body of `impl Valid for [Cell; 9]`: walk the group keeping the set
cells seen so far; fail on the first repeat. -/
def groupValidAux : List Cell → List Cell → Bool
  | [], _ => true
  | c :: rest, seen =>
    if c.is_set then
      if seen.contains c then false else groupValidAux rest (c :: seen)
    else
      groupValidAux rest seen

/-- The `impl Valid for [Cell; 9]`: no duplicate among the set cells. -/
def groupIsValid (g : List Cell) : Bool :=
  groupValidAux g []

/-- The `impl Valid for Puzzle` instance: every row, column and block of index `0..9` is
a valid group (the early returns of the source loop are equivalent to this
conjunction; the diagnostic `println!` calls are pure-irrelevant). -/
def Puzzle.is_valid (p : Puzzle) : Bool :=
  (List.range 9).all
    (fun i => groupIsValid (p.row i) && groupIsValid (p.column i) && groupIsValid (p.block i))

/-- Method `Puzzle::is_solved`: valid and no unset cell. -/
def Puzzle.is_solved (p : Puzzle) : Bool :=
  p.is_valid && p.cells.all Cell.is_set

/-- The merge loop of `sort.rs`: one element is emitted per iteration; when
both heads exist, `a`'s head is emitted iff `compare(a_head, b_head)`. -/
def merge {T : Type} (compare : T → T → Bool) : List T → List T → List T
  | [], [] => []
  | [], b :: bs => b :: merge compare [] bs
  | a :: as', [] => a :: merge compare as' []
  | a :: as', b :: bs =>
    if compare a b then a :: merge compare as' (b :: bs)
    else b :: merge compare (a :: as') bs
termination_by a b => a.length + b.length

/-- Function `merge_sort` from `sort.rs`, fuel-indexed.  The source's only base case
is `array.len() == 1`; on any other input it splits at `len / 2` and
recurses on both halves.  `none` for every fuel value models the infinite
recursion this produces on the empty slice. -/
def merge_sort {T : Type} (compare : T → T → Bool) : Nat → List T → Option (List T)
  | 0, _ => none
  | fuel + 1, array =>
    if array.length = 1 then some array
    else
      match merge_sort compare fuel (array.take (array.length / 2)),
            merge_sort compare fuel (array.drop (array.length / 2)) with
      | some sortedA, some sortedB => some (merge compare sortedA sortedB)
      | _, _ => none

/-- The `SolverError` enum from `solver.rs`. -/
inductive SolverError where
  | invalidRow : Nat → SolverError
  | invalidColumn : Nat → SolverError
  | invalidBlock : Nat → SolverError
  | deadEnd : Puzzle → SolverError
deriving DecidableEq

/-- Outcome of one `solve_sudoku` call: `Ok`, `Err`, or the `panic!` taken
on a non-`DeadEnd` error from a recursive call. -/
inductive SolveResult where
  | ok : Puzzle → SolveResult
  | err : SolverError → SolveResult
  | fatal : SolverError → SolveResult
deriving DecidableEq

/-- The inner `for possibility in cell_possibilities` loop of
`solve_sudoku`; `go` is the recursive call, `k` the value computed by
continuing with the remaining outer iterations. -/
def tryDigits (go : Puzzle → Option SolveResult) (p : Puzzle) (idx : Nat)
    (k : Option SolveResult) : List Cell → Option SolveResult
  | [] => k
  | d :: ds =>
    match go (p.set_cell idx d) with
    | none => none
    | some (SolveResult.ok q) => some (SolveResult.ok q)
    | some (SolveResult.err (SolverError.deadEnd _)) => tryDigits go p idx k ds
    | some (SolveResult.err e) => some (SolveResult.fatal e)
    | some (SolveResult.fatal e) => some (SolveResult.fatal e)

/-- The outer `for (cell_index, cell_possibilities)` loop of `solve_sudoku`;
falling off the end yields `Err(SolverError::DeadEnd(puzzle))`. -/
def searchCells (go : Puzzle → Option SolveResult) (p : Puzzle) :
    List (Nat × List Cell) → Option SolveResult
  | [] => some (SolveResult.err (SolverError.deadEnd p))
  | (idx, cands) :: rest => tryDigits go p idx (searchCells go p rest) cands

/-- The `all_possibilities` vector built by `solve_sudoku`: every unset cell
index paired with its candidate set. -/
def allPossibilities (p : Puzzle) : List (Nat × List Cell) :=
  p.iter_unset_cells.map (fun x => (x.1, p.possibilities x.1))

/-- The closure `|(_, a), (_, b)| a.len() < b.len()` passed to `merge_sort`. -/
def compareLen (a b : Nat × List Cell) : Bool :=
  decide (a.2.length < b.2.length)

/-- Function `solve_sudoku`, fuel-indexed (`none` = the source recurses forever). -/
def solveSudoku (fuel : Nat) (p : Puzzle) : Option SolveResult :=
  match fuel with
  | 0 => none
  | fuel' + 1 =>
    if p.is_solved then some (SolveResult.ok p)
    else
      match merge_sort compareLen fuel' (allPossibilities p) with
      | none => none
      | some sorted => searchCells (fun q => solveSudoku fuel' q) p sorted

/-- Predicate: `solve_sudoku` terminates on `p` iff some fuel suffices. -/
def solveTerminates (p : Puzzle) : Prop :=
  ∃ fuel, (solveSudoku fuel p).isSome = true

/-- Count of set cells of a board. -/
def setCount (p : Puzzle) : Nat :=
  (p.cells.filter Cell.is_set).length

/-- Count of unset cells of a board. -/
def unsetCount (p : Puzzle) : Nat :=
  (p.cells.filter (fun c => !c.is_set)).length

/-- A completely filled, rule-valid board (the cyclic-shift solution). -/
def solvedGrid : Puzzle :=
  Puzzle.mk (List.map cellOfNat
    [1,2,3,4,5,6,7,8,9,
     4,5,6,7,8,9,1,2,3,
     7,8,9,1,2,3,4,5,6,
     2,3,4,5,6,7,8,9,1,
     5,6,7,8,9,1,2,3,4,
     8,9,1,2,3,4,5,6,7,
     3,4,5,6,7,8,9,1,2,
     6,7,8,9,1,2,3,4,5,
     9,1,2,3,4,5,6,7,8])

/-- A completely filled but invalid board: every cell holds `One`. -/
def allOnesGrid : Puzzle :=
  Puzzle.mk (List.replicate 81 Cell.one)

/-- The blank board: every cell unset. -/
def emptyGrid : Puzzle :=
  Puzzle.mk (List.replicate 81 Cell.unset)

/-! ### Basic cell and board lemmas -/

lemma Cell.is_set_iff {c : Cell} : c.is_set = true ↔ c ≠ Cell.unset := by
  cases c <;> simp [Cell.is_set]

lemma mem_allDigits {c : Cell} : c ∈ allDigits ↔ c ≠ Cell.unset := by
  cases c <;> simp [allDigits]

lemma getD_set_lt {l : List Cell} {i : Nat} (a d : Cell) (m : Nat)
    (hi : i < l.length) :
    (l.set i a).getD m d = if m = i then a else l.getD m d := by
  by_cases h : m = i
  · subst h
    simp [List.getD_eq_getElem?_getD, List.getElem?_set_self, hi]
  · simp [List.getD_eq_getElem?_getD, List.getElem?_set_ne (Ne.symm h), h]

lemma cellAt_set_cell {p : Puzzle} {i : Nat} (d : Cell) (m : Nat)
    (hi : i < p.cells.length) :
    (p.set_cell i d).cellAt m = if m = i then d else p.cellAt m :=
  getD_set_lt d Cell.unset m hi

lemma length_set_cell (p : Puzzle) (i : Nat) (d : Cell) :
    (p.set_cell i d).cells.length = p.cells.length :=
  List.length_set p.cells i d

/-! ### Group validity: the scan of `impl Valid for [Cell; 9]` accepts a
group iff its set cells have no duplicate. -/

lemma groupValidAux_iff (l : List Cell) (seen : List Cell) :
    groupValidAux l seen = true ↔
      ((l.filter Cell.is_set).Nodup ∧ ∀ c ∈ l, c.is_set = true → c ∉ seen) := by
  induction l generalizing seen with
  | nil => simp [groupValidAux]
  | cons c rest ih =>
    have heq : groupValidAux (c :: rest) seen =
        if c.is_set then
          (if seen.contains c then false else groupValidAux rest (c :: seen))
        else groupValidAux rest seen := rfl
    rw [heq]
    cases hset : c.is_set with
    | false =>
      simp only [Bool.false_eq_true, if_false]
      rw [List.filter_cons_of_neg (by simp [hset]), ih]
      constructor
      · rintro ⟨h1, h2⟩
        refine ⟨h1, ?_⟩
        intro x hx hxs
        rcases List.mem_cons.mp hx with rfl | hx'
        · rw [hset] at hxs; cases hxs
        · exact h2 x hx' hxs
      · rintro ⟨h1, h2⟩
        exact ⟨h1, fun x hx hxs => h2 x (List.mem_cons_of_mem c hx) hxs⟩
    | true =>
      simp only [if_true]
      cases hseen : seen.contains c with
      | true =>
        simp only [if_true, Bool.false_eq_true, false_iff]
        rintro ⟨-, hall⟩
        exact (hall c (List.mem_cons_self c rest) hset) (by simpa using hseen)
      | false =>
        have hcseen : c ∉ seen := fun hmem => by simp [hmem] at hseen
        simp only [Bool.false_eq_true, if_false]
        rw [ih, List.filter_cons_of_pos hset, List.nodup_cons]
        constructor
        · rintro ⟨hnd, hall⟩
          refine ⟨⟨fun hcf => ?_, hnd⟩, ?_⟩
          · exact (hall c (List.mem_filter.mp hcf).1 hset) (List.mem_cons_self c seen)
          · intro x hx hxs
            rcases List.mem_cons.mp hx with rfl | hx'
            · exact hcseen
            · intro hxseen
              exact (hall x hx' hxs) (List.mem_cons_of_mem c hxseen)
        · rintro ⟨⟨hcf, hnd⟩, hall⟩
          refine ⟨hnd, ?_⟩
          intro x hx hxs hxcs
          rcases List.mem_cons.mp hxcs with rfl | hxseen
          · exact hcf (List.mem_filter.mpr ⟨hx, hxs⟩)
          · exact hall x (List.mem_cons_of_mem c hx) hxs hxseen

lemma groupIsValid_iff (l : List Cell) :
    groupIsValid l = true ↔ (l.filter Cell.is_set).Nodup := by
  simp [groupIsValid, groupValidAux_iff]

/-! ### Index-list facts -/

lemma nodup_rowIdxs (j : Nat) : (rowIdxs j).Nodup := by
  simp [rowIdxs]

lemma nodup_colIdxs (j : Nat) : (colIdxs j).Nodup := by
  simp [colIdxs]

lemma nodup_blockIdxs (j : Nat) : (blockIdxs j).Nodup := by
  simp [blockIdxs]

lemma mem_rowIdxs {i j : Nat} :
    i ∈ rowIdxs j ↔ i / 9 = j := by
  simp [rowIdxs]; omega

lemma mem_colIdxs {i j : Nat} (hi : i < 81) (hj : j < 9) :
    i ∈ colIdxs j ↔ i % 9 = j := by
  simp [colIdxs]; omega

lemma mem_blockIdxs {i j : Nat} (hi : i < 81) (hj : j < 9) :
    i ∈ blockIdxs j ↔ blockIndexOf (i / 9) (i % 9) = j := by
  simp only [blockIdxs, blockStart, blockIndexOf, List.mem_cons, List.not_mem_nil, or_false]
  split_ifs <;> omega

/-! ### Candidate sets and preservation of validity by candidate fills -/

lemma mem_possibilities {p : Puzzle} {i : Nat} {d : Cell} :
    d ∈ p.possibilities i ↔
      d ∈ allDigits ∧ d ∉ p.row (i / 9) ∧ d ∉ p.column (i % 9) ∧
        d ∉ p.block (blockIndexOf (i / 9) (i % 9)) := by
  simp [Puzzle.possibilities, List.mem_filter, not_or, and_assoc]

lemma possibilities_is_set {p : Puzzle} {i : Nat} {d : Cell}
    (hd : d ∈ p.possibilities i) : d.is_set = true :=
  Cell.is_set_iff.mpr (mem_allDigits.mp (mem_possibilities.mp hd).1)

lemma is_valid_iff (p : Puzzle) :
    p.is_valid = true ↔
      ∀ j, j < 9 → groupIsValid (p.row j) = true ∧ groupIsValid (p.column j) = true ∧
        groupIsValid (p.block j) = true := by
  simp [Puzzle.is_valid, List.all_eq_true, List.mem_range, Bool.and_eq_true, and_assoc]

lemma mem_map_update {idxs : List Nat} {f : Nat → Cell} {i : Nat} {d : Cell} {x : Cell}
    (hx : x ∈ idxs.map (fun m => if m = i then d else f m)) :
    x = d ∨ x ∈ idxs.map f := by
  rcases List.mem_map.mp hx with ⟨m, hm, hval⟩
  by_cases hmi : m = i
  · subst hmi; rw [if_pos rfl] at hval; exact Or.inl hval.symm
  · rw [if_neg hmi] at hval; exact Or.inr (hval ▸ List.mem_map_of_mem f hm)

lemma nodup_filter_update (f : Nat → Cell) (i : Nat) (d : Cell)
    (hunset : f i = Cell.unset) (hdset : d.is_set = true) :
    ∀ idxs : List Nat, idxs.Nodup → i ∈ idxs → d ∉ idxs.map f →
      ((idxs.map f).filter Cell.is_set).Nodup →
      ((idxs.map (fun m => if m = i then d else f m)).filter Cell.is_set).Nodup := by
  intro idxs
  induction idxs with
  | nil => intro _ hmem _ _; simp at hmem
  | cons m rest ih =>
    intro hnd hmem hdnot hflt
    rw [List.map_cons] at hflt ⊢
    rcases eq_or_ne m i with rfl | hmi
    · rw [if_pos rfl]
      have hrest_eq : rest.map (fun m' => if m' = m then d else f m') = rest.map f :=
        List.map_congr_left
          (fun x hx => if_neg (fun h => (List.nodup_cons.mp hnd).1 (by rw [h] at hx; exact hx)))
      rw [hrest_eq, List.filter_cons_of_pos hdset]
      rw [List.filter_cons_of_neg (by simp [hunset, Cell.is_set])] at hflt
      refine List.nodup_cons.mpr ⟨fun hdf => ?_, hflt⟩
      exact hdnot (List.mem_cons_of_mem _ (List.mem_of_mem_filter hdf))
    · have hmem' : i ∈ rest := by
        rcases List.mem_cons.mp hmem with h | h
        · exact absurd h.symm hmi
        · exact h
      rw [if_neg hmi]
      have hnd' := List.nodup_cons.mp hnd
      have hdnot' : d ∉ rest.map f := fun h => hdnot (List.mem_cons_of_mem _ h)
      by_cases hfm : (f m).is_set = true
      · rw [List.filter_cons_of_pos hfm] at hflt ⊢
        have hflt' := List.nodup_cons.mp hflt
        refine List.nodup_cons.mpr ⟨fun hcontra => ?_, ih hnd'.2 hmem' hdnot' hflt'.2⟩
        rcases mem_map_update (List.mem_of_mem_filter hcontra) with heq | hmemf
        · apply hdnot; rw [← heq]; exact List.mem_cons_self _ _
        · exact hflt'.1 (List.mem_filter.mpr ⟨hmemf, hfm⟩)
      · rw [List.filter_cons_of_neg hfm] at hflt ⊢
        exact ih hnd'.2 hmem' hdnot' hflt

lemma groupIsValid_update (idxs : List Nat) (f : Nat → Cell) (i : Nat) (d : Cell)
    (hnd : idxs.Nodup) (hunset : f i = Cell.unset) (hdset : d.is_set = true)
    (hvalid : groupIsValid (idxs.map f) = true)
    (hdnot : i ∈ idxs → d ∉ idxs.map f) :
    groupIsValid (idxs.map (fun m => if m = i then d else f m)) = true := by
  by_cases hmem : i ∈ idxs
  · rw [groupIsValid_iff] at hvalid ⊢
    exact nodup_filter_update f i d hunset hdset idxs hnd hmem (hdnot hmem) hvalid
  · have : idxs.map (fun m => if m = i then d else f m) = idxs.map f :=
      List.map_congr_left (fun x hx => if_neg (fun h => hmem (by rw [h] at hx; exact hx)))
    rw [this]; exact hvalid

/-- Filling an unset cell with one of its own candidates keeps the board
valid (core of claim C4, reused by the solver's termination argument). -/
lemma is_valid_set_cell {p : Puzzle} {i : Nat} {d : Cell}
    (hlen : p.cells.length = 81) (hvalid : p.is_valid = true) (hi : i < 81)
    (hunset : p.cellAt i = Cell.unset) (hd : d ∈ p.possibilities i) :
    (p.set_cell i d).is_valid = true := by
  obtain ⟨hdig, hnr, hnc, hnb⟩ := mem_possibilities.mp hd
  have hdset : d.is_set = true := Cell.is_set_iff.mpr (mem_allDigits.mp hdig)
  have hilen : i < p.cells.length := hlen ▸ hi
  rw [is_valid_iff] at hvalid ⊢
  intro j hj
  obtain ⟨hr, hc, hb⟩ := hvalid j hj
  have hmap : ∀ idxs : List Nat,
      idxs.map (p.set_cell i d).cellAt = idxs.map (fun m => if m = i then d else p.cellAt m) :=
    fun idxs => List.map_congr_left (fun m _ => cellAt_set_cell d m hilen)
  refine ⟨?_, ?_, ?_⟩
  · show groupIsValid ((rowIdxs j).map (p.set_cell i d).cellAt) = true
    rw [hmap]
    exact groupIsValid_update _ _ _ _ (nodup_rowIdxs j) hunset hdset hr
      (fun hmem => by rw [mem_rowIdxs.mp hmem] at hnr; exact hnr)
  · show groupIsValid ((colIdxs j).map (p.set_cell i d).cellAt) = true
    rw [hmap]
    exact groupIsValid_update _ _ _ _ (nodup_colIdxs j) hunset hdset hc
      (fun hmem => by rw [(mem_colIdxs hi hj).mp hmem] at hnc; exact hnc)
  · show groupIsValid ((blockIdxs j).map (p.set_cell i d).cellAt) = true
    rw [hmap]
    exact groupIsValid_update _ _ _ _ (nodup_blockIdxs j) hunset hdset hb
      (fun hmem => by rw [(mem_blockIdxs hi hj).mp hmem] at hnb; exact hnb)

/-! ### Merge and merge sort lemmas -/

lemma merge_perm {T : Type} (compare : T → T → Bool) (a b : List T) :
    List.Perm (merge compare a b) (a ++ b) := by
  induction a, b using merge.induct compare with
  | case1 => simp [merge]
  | case2 b bs ih => simp [merge]; exact ih
  | case3 a as ih => simpa [merge] using ih
  | case4 a as b bs htrue ih => rw [merge, if_pos htrue]; exact (ih.cons a)
  | case5 a as b bs hfalse ih =>
    rw [merge, if_neg hfalse]
    refine (ih.cons b).trans ?_
    exact (List.perm_middle).symm

lemma merge_head? {T : Type} (compare : T → T → Bool) (a b : List T) (x : T)
    (hx : (merge compare a b).head? = some x) :
    a.head? = some x ∨ b.head? = some x := by
  induction a, b using merge.induct compare with
  | case1 => simp [merge] at hx
  | case2 b bs ih => rw [merge] at hx; simp at hx ⊢; tauto
  | case3 a as ih => rw [merge] at hx; simp at hx ⊢; tauto
  | case4 a as b bs htrue ih => rw [merge, if_pos htrue] at hx; simp at hx ⊢; tauto
  | case5 a as b bs hfalse ih => rw [merge, if_neg hfalse] at hx; simp at hx ⊢; tauto

lemma merge_nil_left {T : Type} (compare : T → T → Bool) (bs : List T) :
    merge compare [] bs = bs := by
  induction bs with
  | nil => rw [merge]
  | cons b bs ih => rw [merge, ih]

lemma merge_nil_right {T : Type} (compare : T → T → Bool) (as' : List T) :
    merge compare as' [] = as' := by
  induction as' with
  | nil => rw [merge]
  | cons a as' ih => rw [merge, ih]

lemma merge_chain' {T : Type} (compare : T → T → Bool)
    (hasym : ∀ x y, compare x y = true → compare y x = false) (a b : List T)
    (ha : List.Chain' (fun x y => compare y x = false) a)
    (hb : List.Chain' (fun x y => compare y x = false) b) :
    List.Chain' (fun x y => compare y x = false) (merge compare a b) := by
  induction a, b using merge.induct compare with
  | case1 => simp [merge]
  | case2 b bs ih => rw [merge_nil_left]; exact hb
  | case3 a as ih => rw [merge_nil_right]; exact ha
  | case4 a as b bs htrue ih =>
    rw [merge, if_pos htrue]
    rw [List.chain'_cons'] at ha
    refine List.chain'_cons'.mpr ⟨?_, ih ha.2 hb⟩
    intro y hy
    rcases merge_head? compare as (b :: bs) y hy with h | h
    · exact ha.1 y h
    · simp at h; rw [← h]; exact hasym a b htrue
  | case5 a as b bs hfalse ih =>
    rw [merge, if_neg hfalse]
    rw [List.chain'_cons'] at hb
    refine List.chain'_cons'.mpr ⟨?_, ih ha hb.2⟩
    intro y hy
    rcases merge_head? compare (a :: as) bs y hy with h | h
    · simp at h; rw [← h]; simpa using hfalse
    · exact hb.1 y h


lemma ms_empty {T : Type} (compare : T → T → Bool) :
    ∀ fuel, merge_sort compare fuel ([] : List T) = none := by
  intro fuel
  induction fuel with
  | zero => rfl
  | succ fuel ih => rw [merge_sort]; simp [ih]

lemma ms_isSome {T : Type} (compare : T → T → Bool) :
    ∀ fuel (l : List T), l ≠ [] → l.length ≤ fuel →
      (merge_sort compare fuel l).isSome = true := by
  intro fuel
  induction fuel with
  | zero =>
    intro l hne hlen
    rw [Nat.le_zero] at hlen
    exact absurd (List.length_eq_zero.mp hlen) hne
  | succ fuel ih =>
    intro l hne hlen
    rw [merge_sort]
    by_cases h1 : l.length = 1
    · simp [h1]
    · have h0 : l.length ≠ 0 := fun h => hne (List.length_eq_zero.mp h)
      have h2 : 2 ≤ l.length := by omega
      rw [if_neg h1]
      have hta : (l.take (l.length / 2)).length = l.length / 2 := by
        rw [List.length_take]; omega
      have htb : (l.drop (l.length / 2)).length = l.length - l.length / 2 :=
        List.length_drop _ _
      have ha := ih (l.take (l.length / 2))
        (fun h => by rw [h] at hta; simp at hta; omega)
        (by rw [hta]; omega)
      have hb := ih (l.drop (l.length / 2))
        (fun h => by rw [h] at htb; simp at htb; omega)
        (by rw [htb]; omega)
      rcases Option.isSome_iff_exists.mp ha with ⟨ra, hra⟩
      rcases Option.isSome_iff_exists.mp hb with ⟨rb, hrb⟩
      rw [hra, hrb]
      rfl

lemma ms_perm {T : Type} (compare : T → T → Bool) :
    ∀ fuel (l r : List T), merge_sort compare fuel l = some r → List.Perm r l := by
  intro fuel
  induction fuel with
  | zero => intro l r h; simp [merge_sort] at h
  | succ fuel ih =>
    intro l r h
    rw [merge_sort] at h
    by_cases h1 : l.length = 1
    · rw [if_pos h1] at h
      simp at h
      rw [h]
    · rw [if_neg h1] at h
      cases hma : merge_sort compare fuel (l.take (l.length / 2)) with
      | none => rw [hma] at h; simp at h
      | some ra =>
        cases hmb : merge_sort compare fuel (l.drop (l.length / 2)) with
        | none => rw [hma, hmb] at h; simp at h
        | some rb =>
          rw [hma, hmb] at h
          simp at h
          rw [← h]
          refine (merge_perm compare ra rb).trans ?_
          refine ((ih _ _ hma).append (ih _ _ hmb)).trans ?_
          rw [List.take_append_drop]

lemma ms_chain {T : Type} (compare : T → T → Bool)
    (hasym : ∀ x y, compare x y = true → compare y x = false) :
    ∀ fuel (l r : List T), merge_sort compare fuel l = some r →
      List.Chain' (fun x y => compare y x = false) r := by
  intro fuel
  induction fuel with
  | zero => intro l r h; simp [merge_sort] at h
  | succ fuel ih =>
    intro l r h
    rw [merge_sort] at h
    by_cases h1 : l.length = 1
    · rw [if_pos h1] at h
      simp at h
      rcases List.length_eq_one.mp h1 with ⟨x, rfl⟩
      rw [← h]
      simp
    · rw [if_neg h1] at h
      cases hma : merge_sort compare fuel (l.take (l.length / 2)) with
      | none => rw [hma] at h; simp at h
      | some ra =>
        cases hmb : merge_sort compare fuel (l.drop (l.length / 2)) with
        | none => rw [hma, hmb] at h; simp at h
        | some rb =>
          rw [hma, hmb] at h
          simp at h
          rw [← h]
          exact merge_chain' compare hasym ra rb (ih _ _ hma) (ih _ _ hmb)


/-! ### Solver bookkeeping lemmas -/

lemma solveSudoku_succ (fuel : Nat) (p : Puzzle) :
    solveSudoku (fuel + 1) p =
      if p.is_solved then some (SolveResult.ok p)
      else
        match merge_sort compareLen fuel (allPossibilities p) with
        | none => none
        | some sorted => searchCells (fun q => solveSudoku fuel q) p sorted := rfl

lemma mem_iter_unset {p : Puzzle} {x : Nat × Cell} (hx : x ∈ p.iter_unset_cells) :
    x.1 < p.cells.length ∧ p.cellAt x.1 = Cell.unset := by
  obtain ⟨hmem, hset⟩ := List.mem_filter.mp hx
  have hget := List.mem_enum_iff_getElem?.mp hmem
  have hlt : x.1 < p.cells.length := by
    by_contra hge
    rw [List.getElem?_eq_none (by omega)] at hget
    cases hget
  have hunset : x.2 = Cell.unset := by
    rcases x with ⟨i, c⟩
    cases c <;> simp [Cell.is_set] at hset ⊢
  refine ⟨hlt, ?_⟩
  rw [Puzzle.cellAt, List.getD_eq_getElem?_getD, hget]
  simpa using hunset

lemma mem_allPossibilities {p : Puzzle} {y : Nat × List Cell}
    (hy : y ∈ allPossibilities p) :
    y.1 < p.cells.length ∧ p.cellAt y.1 = Cell.unset ∧ y.2 = p.possibilities y.1 := by
  rcases List.mem_map.mp hy with ⟨x, hx, hval⟩
  obtain ⟨h1, h2⟩ := mem_iter_unset hx
  rcases y with ⟨i, cs⟩
  cases hval
  exact ⟨h1, h2, rfl⟩

lemma enumFrom_filter_length (l : List Cell) :
    ∀ n, ((List.enumFrom n l).filter (fun x => !x.2.is_set)).length =
      (l.filter (fun c => !c.is_set)).length := by
  induction l with
  | nil => intro n; rfl
  | cons c t ih =>
    intro n
    by_cases hc : c.is_set = true
    · simp [List.enumFrom, List.filter, hc, ih]
    · simp only [Bool.not_eq_true] at hc
      simp [List.enumFrom, List.filter, hc, ih]

lemma length_allPossibilities (p : Puzzle) :
    (allPossibilities p).length = unsetCount p := by
  rw [allPossibilities, List.length_map, Puzzle.iter_unset_cells, unsetCount]
  exact enumFrom_filter_length p.cells 0

lemma all_set_of_unsetCount_zero {p : Puzzle} (h : unsetCount p = 0) :
    p.cells.all Cell.is_set = true := by
  rw [unsetCount, List.length_eq_zero] at h
  rw [List.all_eq_true]
  intro c hc
  by_contra hset
  have : c ∈ p.cells.filter (fun c => !c.is_set) :=
    List.mem_filter.mpr (by simpa using And.intro hc hset)
  rw [h] at this
  cases this

lemma solved_of_valid_no_unset {p : Puzzle} (hvalid : p.is_valid = true)
    (h : unsetCount p = 0) : p.is_solved = true := by
  rw [Puzzle.is_solved, hvalid, all_set_of_unsetCount_zero h]
  rfl

lemma filter_length_set_unset (q : Cell → Bool) (hq : q Cell.unset = true) :
    ∀ (l : List Cell) (i : Nat) (d : Cell), i < l.length →
      l.getD i Cell.unset = Cell.unset → q d = false →
      ((l.set i d).filter q).length + 1 = (l.filter q).length := by
  intro l
  induction l with
  | nil => intro i d h; simp at h
  | cons c t ih =>
    intro i d hi hget hd
    cases i with
    | zero =>
      simp only [List.getD_cons_zero] at hget
      subst hget
      simp [List.filter, hq, hd]
    | succ i =>
      simp only [List.getD_cons_succ] at hget
      have hi' : i < t.length := by simpa using hi
      by_cases hc : q c = true
      · simp [List.filter, hc, ih i d hi' hget hd]
      · simp only [Bool.not_eq_true] at hc
        simp [List.filter, hc, ih i d hi' hget hd]

lemma unsetCount_set_cell {p : Puzzle} {i : Nat} {d : Cell}
    (hi : i < p.cells.length) (hunset : p.cellAt i = Cell.unset)
    (hdset : d.is_set = true) :
    unsetCount (p.set_cell i d) + 1 = unsetCount p :=
  filter_length_set_unset (fun c => !c.is_set) rfl p.cells i d hi hunset (by simp [hdset])

lemma filter_length_set_set (q : Cell → Bool) (hq : q Cell.unset = false) :
    ∀ (l : List Cell) (i : Nat) (d : Cell), i < l.length →
      l.getD i Cell.unset = Cell.unset → q d = true →
      ((l.set i d).filter q).length = (l.filter q).length + 1 := by
  intro l
  induction l with
  | nil => intro i d h; simp at h
  | cons c t ih =>
    intro i d hi hget hd
    cases i with
    | zero =>
      simp only [List.getD_cons_zero] at hget
      subst hget
      simp [List.filter, hq, hd]
    | succ i =>
      simp only [List.getD_cons_succ] at hget
      have hi' : i < t.length := by simpa using hi
      by_cases hc : q c = true
      · simp [List.filter, hc, ih i d hi' hget hd]
      · simp only [Bool.not_eq_true] at hc
        simp [List.filter, hc, ih i d hi' hget hd]

lemma setCount_set_cell {p : Puzzle} {i : Nat} {d : Cell}
    (hi : i < p.cells.length) (hunset : p.cellAt i = Cell.unset)
    (hdset : d.is_set = true) :
    setCount (p.set_cell i d) = setCount p + 1 :=
  filter_length_set_set Cell.is_set rfl p.cells i d hi hunset hdset


/-! ### The solver returns only solved boards or its own dead end -/

lemma tryDigits_invariant (go : Puzzle → Option SolveResult) (p : Puzzle) (idx : Nat)
    (k : Option SolveResult) (K : SolveResult → Prop)
    (hgo : ∀ q r', go q = some r' →
      (∃ s, r' = SolveResult.ok s ∧ s.is_solved = true) ∨
        (∃ q', r' = SolveResult.err (SolverError.deadEnd q')))
    (hk : ∀ r, k = some r → K r) :
    ∀ (ds : List Cell) (r : SolveResult), tryDigits go p idx k ds = some r →
      (∃ s, r = SolveResult.ok s ∧ s.is_solved = true) ∨ K r := by
  intro ds
  induction ds with
  | nil => intro r h; exact Or.inr (hk r h)
  | cons d ds ih =>
    intro r h
    rw [tryDigits] at h
    cases hcall : go (p.set_cell idx d) with
    | none => rw [hcall] at h; cases h
    | some r' =>
      rw [hcall] at h
      rcases hgo _ _ hcall with ⟨s, rfl, hs⟩ | ⟨q', rfl⟩
      · simp at h
        exact Or.inl ⟨s, h.symm, hs⟩
      · exact ih r h

lemma searchCells_invariant (go : Puzzle → Option SolveResult) (p : Puzzle)
    (hgo : ∀ q r', go q = some r' →
      (∃ s, r' = SolveResult.ok s ∧ s.is_solved = true) ∨
        (∃ q', r' = SolveResult.err (SolverError.deadEnd q'))) :
    ∀ (l : List (Nat × List Cell)) (r : SolveResult), searchCells go p l = some r →
      (∃ s, r = SolveResult.ok s ∧ s.is_solved = true) ∨
        r = SolveResult.err (SolverError.deadEnd p) := by
  intro l
  induction l with
  | nil =>
    intro r h
    rw [searchCells] at h
    simp at h
    exact Or.inr h.symm
  | cons y rest ih =>
    rcases y with ⟨idx, cands⟩
    intro r h
    rw [searchCells] at h
    rcases tryDigits_invariant go p idx (searchCells go p rest)
        (fun r => (∃ s, r = SolveResult.ok s ∧ s.is_solved = true) ∨
          r = SolveResult.err (SolverError.deadEnd p)) hgo ih cands r h with
      hok | hrest
    · exact Or.inl hok
    · exact hrest

/-- Master invariant: any result `solve_sudoku` produces on board `p` is
either `Ok` of a solved board, or `Err(DeadEnd(p))` with `p` the very board
this call received — never an invalid-row/column/block error, never the
`panic!` branch. -/
lemma solve_invariant :
    ∀ (fuel : Nat) (p : Puzzle) (r : SolveResult), solveSudoku fuel p = some r →
      (∃ s, r = SolveResult.ok s ∧ s.is_solved = true) ∨
        r = SolveResult.err (SolverError.deadEnd p) := by
  intro fuel
  induction fuel with
  | zero => intro p r h; cases h
  | succ fuel ih =>
    intro p r h
    rw [solveSudoku_succ] at h
    by_cases hsolved : p.is_solved = true
    · rw [if_pos hsolved] at h
      simp at h
      exact Or.inl ⟨p, h.symm, hsolved⟩
    · rw [if_neg hsolved] at h
      cases hms : merge_sort compareLen fuel (allPossibilities p) with
      | none => rw [hms] at h; cases h
      | some sorted =>
        rw [hms] at h
        refine searchCells_invariant _ p ?_ sorted r h
        intro q r' hq
        rcases ih q r' hq with hok | hde
        · exact Or.inl hok
        · exact Or.inr ⟨q, hde⟩

/-! ### Termination on valid boards -/

lemma tryDigits_isSome (go : Puzzle → Option SolveResult) (p : Puzzle) (idx : Nat)
    (k : Option SolveResult) (hk : k.isSome = true) :
    ∀ ds : List Cell, (∀ d ∈ ds, (go (p.set_cell idx d)).isSome = true) →
      (tryDigits go p idx k ds).isSome = true := by
  intro ds
  induction ds with
  | nil => intro _; exact hk
  | cons d ds ih =>
    intro hgo
    rw [tryDigits]
    rcases Option.isSome_iff_exists.mp (hgo d (List.mem_cons_self d ds)) with ⟨r', hr'⟩
    rw [hr']
    cases r' with
    | ok q => rfl
    | err e =>
      cases e with
      | deadEnd q => exact ih (fun d' hd' => hgo d' (List.mem_cons_of_mem d hd'))
      | invalidRow n => rfl
      | invalidColumn n => rfl
      | invalidBlock n => rfl
    | fatal e => rfl

lemma searchCells_isSome (go : Puzzle → Option SolveResult) (p : Puzzle) :
    ∀ l : List (Nat × List Cell),
      (∀ y ∈ l, ∀ d ∈ y.2, (go (p.set_cell y.1 d)).isSome = true) →
      (searchCells go p l).isSome = true := by
  intro l
  induction l with
  | nil => intro _; rfl
  | cons y rest ih =>
    intro hgo
    rcases y with ⟨idx, cands⟩
    rw [searchCells]
    refine tryDigits_isSome go p idx _ (ih ?_) cands ?_
    · exact fun y hy d hd => hgo y (List.mem_cons_of_mem _ hy) d hd
    · exact fun d hd => hgo (idx, cands) (List.mem_cons_self _ _) d hd

/-- On a valid 81-cell board, `solve_sudoku` returns a value whenever the
fuel exceeds the number of unset cells by at least 82 (one unit per nesting
level for the solver itself plus enough for every inner `merge_sort`). -/
lemma solve_isSome_of_valid :
    ∀ (fuel : Nat) (p : Puzzle), p.cells.length = 81 → p.is_valid = true →
      unsetCount p + 82 ≤ fuel → (solveSudoku fuel p).isSome = true := by
  intro fuel
  induction fuel with
  | zero => intro p _ _ h; omega
  | succ fuel ih =>
    intro p hlen hvalid hfuel
    rw [solveSudoku_succ]
    by_cases hsolved : p.is_solved = true
    · rw [if_pos hsolved]; rfl
    · rw [if_neg hsolved]
      have hu : unsetCount p ≠ 0 := fun h => hsolved (solved_of_valid_no_unset hvalid h)
      have hne : allPossibilities p ≠ [] := by
        intro h
        apply hu
        have := length_allPossibilities p
        rw [h] at this
        simpa using this.symm
      have hlenle : (allPossibilities p).length ≤ fuel := by
        rw [length_allPossibilities]; omega
      rcases Option.isSome_iff_exists.mp (ms_isSome compareLen fuel _ hne hlenle) with
        ⟨sorted, hsorted⟩
      rw [hsorted]
      apply searchCells_isSome
      intro y hy d hd
      have hyin : y ∈ allPossibilities p := ((ms_perm compareLen fuel _ sorted hsorted).mem_iff).mp hy
      obtain ⟨hylt, hyunset, hyposs⟩ := mem_allPossibilities hyin
      have hy81 : y.1 < 81 := hlen ▸ hylt
      have hdposs : d ∈ p.possibilities y.1 := by rw [← hyposs]; exact hd
      have hdset : d.is_set = true := possibilities_is_set hdposs
      apply ih
      · rw [length_set_cell]; exact hlen
      · exact is_valid_set_cell hlen hvalid hy81 hyunset hdposs
      · have := unsetCount_set_cell hylt hyunset hdset
        omega


/-! ### Divergence of the solver on a full invalid board -/

lemma allPoss_allOnes : allPossibilities allOnesGrid = [] := by decide

lemma solve_allOnes_none : ∀ fuel, solveSudoku fuel allOnesGrid = none := by
  intro fuel
  cases fuel with
  | zero => rfl
  | succ fuel =>
    rw [solveSudoku_succ, if_neg (by decide), allPoss_allOnes, ms_empty compareLen fuel]

/-! ### Claim theorems -/

/-- C2: whenever `solve_sudoku` returns success, the returned grid satisfies
`is_solved()`; a partially filled grid is never returned as success. -/
theorem claimC2 (fuel : Nat) (p q : Puzzle)
    (h : solveSudoku fuel p = some (SolveResult.ok q)) : q.is_solved = true := by
  rcases solve_invariant fuel p _ h with ⟨s, hs, hsolved⟩ | hde
  · have : q = s := by injection hs
    rw [this]
    exact hsolved
  · simp at hde

theorem claimC2_witness :
    solveSudoku 1 solvedGrid = some (SolveResult.ok solvedGrid) ∧
      solvedGrid.is_solved = true :=
  ⟨by decide, claimC2 1 solvedGrid solvedGrid (by decide)⟩


/-- C1 (amended): each recursive call of the solver fills exactly one more
cell, and on every VALID 81-cell input grid `solve_sudoku` terminates with
either success or a dead end at the root.  (As stated over every input
grid the claim is false: see the counterexample, a full invalid board on
which the inner `merge_sort` diverges on an empty candidate list.) -/
theorem claimC1 (p : Puzzle) (hlen : p.cells.length = 81)
    (hvalid : p.is_valid = true) :
    (∀ i d, i < 81 → p.cellAt i = Cell.unset → d ∈ p.possibilities i →
        setCount (p.set_cell i d) = setCount p + 1) ∧
    ∃ r, solveSudoku (unsetCount p + 82) p = some r ∧
      ((∃ q, r = SolveResult.ok q) ∨ r = SolveResult.err (SolverError.deadEnd p)) := by
  constructor
  · intro i d hi hunset hd
    exact setCount_set_cell (hlen ▸ hi) hunset (possibilities_is_set hd)
  · rcases Option.isSome_iff_exists.mp
        (solve_isSome_of_valid (unsetCount p + 82) p hlen hvalid (le_refl _)) with ⟨r, hr⟩
    rcases solve_invariant _ p r hr with ⟨s, rfl, _⟩ | hde
    · exact ⟨_, hr, Or.inl ⟨s, rfl⟩⟩
    · exact ⟨r, hr, Or.inr hde⟩

/-- C1 counterexample: on the fully-filled all-`One` board (invalid, no
unset cell) `solve_sudoku` calls `merge_sort` on an empty list and never
returns, for any amount of fuel. -/
theorem claimC1_counterexample : ¬ solveTerminates allOnesGrid := by
  rintro ⟨fuel, hfuel⟩
  rw [solve_allOnes_none fuel] at hfuel
  cases hfuel

theorem claimC1_witness :
    (emptyGrid.cells.length = 81 ∧ emptyGrid.is_valid = true) ∧
    ((∀ i d, i < 81 → emptyGrid.cellAt i = Cell.unset → d ∈ emptyGrid.possibilities i →
        setCount (emptyGrid.set_cell i d) = setCount emptyGrid + 1) ∧
      ∃ r, solveSudoku (unsetCount emptyGrid + 82) emptyGrid = some r ∧
        ((∃ q, r = SolveResult.ok q) ∨
          r = SolveResult.err (SolverError.deadEnd emptyGrid))) :=
  ⟨⟨by decide, by decide⟩, claimC1 emptyGrid (by decide) (by decide)⟩

/-- C3: every value `solve_sudoku` returns is `Ok` or the `DeadEnd` variant
carrying the call's own board; `InvalidRow`/`InvalidColumn`/`InvalidBlock`
are never produced, so the `panic!` branch is unreachable. -/
theorem claimC3 (fuel : Nat) (p : Puzzle) (r : SolveResult)
    (h : solveSudoku fuel p = some r) :
    (∃ q, r = SolveResult.ok q) ∨ r = SolveResult.err (SolverError.deadEnd p) := by
  rcases solve_invariant fuel p r h with ⟨s, rfl, _⟩ | hde
  · exact Or.inl ⟨s, rfl⟩
  · exact Or.inr hde

theorem claimC3_witness :
    solveSudoku 1 solvedGrid = some (SolveResult.ok solvedGrid) ∧
    ((∃ q, SolveResult.ok solvedGrid = SolveResult.ok q) ∨
      SolveResult.ok solvedGrid = SolveResult.err (SolverError.deadEnd solvedGrid)) :=
  ⟨by decide, claimC3 1 solvedGrid (SolveResult.ok solvedGrid) (by decide)⟩

/-- C4: filling an unset cell of a valid grid with one of its own
candidates keeps the grid valid. -/
theorem claimC4 (p : Puzzle) (i : Nat) (d : Cell) (hlen : p.cells.length = 81)
    (hvalid : p.is_valid = true) (hi : i < 81)
    (hunset : p.cellAt i = Cell.unset) (hd : d ∈ p.possibilities i) :
    (p.set_cell i d).is_valid = true :=
  is_valid_set_cell hlen hvalid hi hunset hd

theorem claimC4_witness :
    (emptyGrid.cells.length = 81 ∧ emptyGrid.is_valid = true ∧ (0 : Nat) < 81 ∧
      emptyGrid.cellAt 0 = Cell.unset ∧ Cell.one ∈ emptyGrid.possibilities 0) ∧
    (emptyGrid.set_cell 0 Cell.one).is_valid = true :=
  ⟨⟨by decide, by decide, by decide, by decide, by decide⟩,
    claimC4 emptyGrid 0 Cell.one (by decide) (by decide) (by decide) (by decide) (by decide)⟩

/-- C5: `possibilities(i)` excludes every digit occurring in cell `i`'s
row, column or block, and together with the set digits of those three
groups it covers exactly the nine digits. -/
theorem claimC5 (p : Puzzle) (i : Nat) (hi : i < 81)
    (hunset : p.cellAt i = Cell.unset) :
    (∀ d ∈ p.possibilities i,
        d ∉ p.row (i / 9) ++ p.column (i % 9) ++
          p.block (blockIndexOf (i / 9) (i % 9))) ∧
    (∀ d, d ∈ allDigits ↔
        (d ∈ p.possibilities i ∨
          (d ∈ p.row (i / 9) ++ p.column (i % 9) ++
              p.block (blockIndexOf (i / 9) (i % 9)) ∧ d.is_set = true))) := by
  constructor
  · intro d hd
    obtain ⟨-, h1, h2, h3⟩ := mem_possibilities.mp hd
    simp [List.mem_append, not_or]
    exact ⟨h1, h2, h3⟩
  · intro d
    constructor
    · intro hdig
      by_cases hmem : d ∈ p.row (i / 9) ++ p.column (i % 9) ++
          p.block (blockIndexOf (i / 9) (i % 9))
      · exact Or.inr ⟨hmem, Cell.is_set_iff.mpr (mem_allDigits.mp hdig)⟩
      · refine Or.inl (mem_possibilities.mpr ⟨hdig, ?_, ?_, ?_⟩) <;>
          (intro hc; exact hmem (by simp [List.mem_append]; tauto))
    · rintro (hposs | ⟨-, hset⟩)
      · exact (List.mem_filter.mp hposs).1
      · exact mem_allDigits.mpr (Cell.is_set_iff.mp hset)

theorem claimC5_witness :
    ((0 : Nat) < 81 ∧ emptyGrid.cellAt 0 = Cell.unset) ∧
    ((∀ d ∈ emptyGrid.possibilities 0,
        d ∉ emptyGrid.row 0 ++ emptyGrid.column 0 ++ emptyGrid.block (blockIndexOf 0 0)) ∧
      (∀ d, d ∈ allDigits ↔
        (d ∈ emptyGrid.possibilities 0 ∨
          (d ∈ emptyGrid.row 0 ++ emptyGrid.column 0 ++ emptyGrid.block (blockIndexOf 0 0) ∧
            d.is_set = true)))) :=
  ⟨⟨by decide, by decide⟩, claimC5 emptyGrid 0 (by decide) (by decide)⟩

/-- C6 (amended): when the two heads are tied under the predicate, the
merge emits the head of the SECOND half (`b`) first, not the first half's
(the `else` branch of the comparison fires because `compare a b` is
false). -/
theorem claimC6 {T : Type} (compare : T → T → Bool) (a b : T) (as' bs : List T)
    (htie : compare a b = false ∧ compare b a = false) :
    merge compare (a :: as') (b :: bs) = b :: merge compare (a :: as') bs := by
  rw [merge, if_neg (by simp [htie.1])]

/-- C6 counterexample: under the everywhere-false predicate the elements
`1` and `2` are tied, yet `merge` puts the second list's head first, so the
output is `[2, 1]`, not `[1, 2]` as the claim requires. -/
theorem claimC6_counterexample :
    (fun _ _ : Nat => false) 1 2 = false ∧ (fun _ _ : Nat => false) 2 1 = false ∧
      merge (fun _ _ : Nat => false) [1] [2] = [2, 1] := by
  refine ⟨rfl, rfl, ?_⟩
  rw [merge, if_neg (by simp), merge_nil_right]

theorem claimC6_witness :
    ((fun _ _ : Nat => false) 1 2 = false ∧ (fun _ _ : Nat => false) 2 1 = false) ∧
      merge (fun _ _ : Nat => false) [1] [2] =
        2 :: merge (fun _ _ : Nat => false) [1] [] :=
  ⟨⟨rfl, rfl⟩, claimC6 (fun _ _ : Nat => false) 1 2 [] [] ⟨rfl, rfl⟩⟩

/-- C7: the source `merge_sort` has no base case for the empty slice — it
splits `[]` into `[]` and `[]` and recurses on both forever.  In the fuel
model: no amount of fuel produces a value on the empty input.  The claim
(and spec) say the empty input returns empty, so this is a bug in the
code. -/
theorem claimC7 {T : Type} (compare : T → T → Bool) (fuel : Nat) :
    merge_sort compare fuel ([] : List T) = none :=
  ms_empty compare fuel

/-- C8 (amended): for a NONEMPTY input and an asymmetric strict-order
predicate, `merge_sort` terminates (given fuel at least the length) with an
output of the same length in which every adjacent pair is ordered or tied.
(As stated over every input sequence the claim fails on `[]`, where
`merge_sort` never returns — see the counterexample.) -/
theorem claimC8 {T : Type} (compare : T → T → Bool)
    (hasym : ∀ x y, compare x y = true → compare y x = false)
    (l : List T) (hne : l ≠ []) (fuel : Nat) (hfuel : l.length ≤ fuel) :
    ∃ r, merge_sort compare fuel l = some r ∧ r.length = l.length ∧
      List.Chain'
        (fun a b => compare a b = true ∨ (compare a b = false ∧ compare b a = false)) r := by
  rcases Option.isSome_iff_exists.mp (ms_isSome compare fuel l hne hfuel) with ⟨r, hr⟩
  refine ⟨r, hr, (ms_perm compare fuel l r hr).length_eq, ?_⟩
  refine (ms_chain compare hasym fuel l r hr).imp ?_
  intro x y hxy
  by_cases hxyt : compare x y = true
  · exact Or.inl hxyt
  · exact Or.inr ⟨by simpa using hxyt, hxy⟩

/-- C8 counterexample: with the strict order `<` on naturals and the empty
input sequence, `merge_sort` returns no output at all (it diverges), so in
particular it does not return an output of the input's length. -/
theorem claimC8_counterexample :
    ¬ ∃ fuel r, merge_sort (fun a b : Nat => decide (a < b)) fuel ([] : List Nat) = some r := by
  rintro ⟨fuel, r, h⟩
  rw [ms_empty] at h
  cases h

theorem claimC8_witness :
    ((∀ x y : Nat, decide (x < y) = true → decide (y < x) = false) ∧
      ([3, 1, 2] : List Nat) ≠ [] ∧ ([3, 1, 2] : List Nat).length ≤ 3) ∧
    (∃ r, merge_sort (fun a b : Nat => decide (a < b)) 3 [3, 1, 2] = some r ∧
      r.length = ([3, 1, 2] : List Nat).length ∧
      List.Chain'
        (fun a b => decide (a < b) = true ∨ (decide (a < b) = false ∧ decide (b < a) = false)) r) :=
  ⟨⟨fun x y h => by simp at h ⊢; omega, by decide, by decide⟩,
    claimC8 (fun a b : Nat => decide (a < b)) (fun x y h => by simp at h ⊢; omega)
      [3, 1, 2] (by decide) 3 (by decide)⟩

/-- C9: `set_cell` returns a new grid with exactly the one cell replaced;
every other index is unchanged.  (The original grid itself is untouched by
construction: `set_cell` is a pure function on immutable values, the
receiver `p` is never modified.) -/
theorem claimC9 (p : Puzzle) (i : Nat) (v : Cell) (hlen : p.cells.length = 81)
    (hi : i < 81) :
    (p.set_cell i v).cells.length = 81 ∧
    (p.set_cell i v).cellAt i = v ∧
    (∀ j, j ≠ i → (p.set_cell i v).cellAt j = p.cellAt j) := by
  have hilen : i < p.cells.length := hlen ▸ hi
  refine ⟨by rw [length_set_cell, hlen], ?_, ?_⟩
  · rw [cellAt_set_cell v i hilen, if_pos rfl]
  · intro j hj
    rw [cellAt_set_cell v j hilen, if_neg hj]

theorem claimC9_witness :
    (emptyGrid.cells.length = 81 ∧ (5 : Nat) < 81) ∧
    ((emptyGrid.set_cell 5 Cell.two).cells.length = 81 ∧
      (emptyGrid.set_cell 5 Cell.two).cellAt 5 = Cell.two ∧
      (∀ j, j ≠ 5 → (emptyGrid.set_cell 5 Cell.two).cellAt j = emptyGrid.cellAt j)) :=
  ⟨⟨by decide, by decide⟩, claimC9 emptyGrid 5 Cell.two (by decide) (by decide)⟩

/-- C10: `row`, `column` and `block` return exactly the cells given by the
spec's index formulas, and the block of the cell at `(row, column)` is
`(row/3)*3 + column/3`, with the cell sitting at offset
`(row%3)*3 + column%3` inside it. -/
theorem claimC10 (p : Puzzle) (i r c : Nat) (hi : i < 9) (hr : r < 9) (hc : c < 9) :
    p.row i = (List.range 9).map (fun k => p.cellAt (9 * i + k)) ∧
    p.column i = (List.range 9).map (fun k => p.cellAt (i + 9 * k)) ∧
    p.block i = (List.range 9).map
      (fun k => p.cellAt (27 * (i / 3) + 3 * (i % 3) + 9 * (k / 3) + k % 3)) ∧
    p.cellAt (9 * r + c) =
      (p.block ((r / 3) * 3 + c / 3)).getD ((r % 3) * 3 + c % 3) Cell.unset := by
  refine ⟨rfl, rfl, ?_, ?_⟩
  · interval_cases i <;> rfl
  · interval_cases r <;> interval_cases c <;> rfl

theorem claimC10_witness :
    ((4 : Nat) < 9 ∧ (4 : Nat) < 9 ∧ (7 : Nat) < 9) ∧
    (solvedGrid.row 4 = (List.range 9).map (fun k => solvedGrid.cellAt (9 * 4 + k)) ∧
      solvedGrid.column 4 = (List.range 9).map (fun k => solvedGrid.cellAt (4 + 9 * k)) ∧
      solvedGrid.block 4 = (List.range 9).map
        (fun k => solvedGrid.cellAt (27 * (4 / 3) + 3 * (4 % 3) + 9 * (k / 3) + k % 3)) ∧
      solvedGrid.cellAt (9 * 4 + 7) =
        (solvedGrid.block ((4 / 3) * 3 + 7 / 3)).getD ((4 % 3) * 3 + 7 % 3) Cell.unset) :=
  ⟨⟨by decide, by decide, by decide⟩, claimC10 solvedGrid 4 4 7 (by decide) (by decide) (by decide)⟩

end Zognorp
